import Mathlib

/-!
Shallow embedding of the `fuse-passthrough` filesystem core (`src/main.rs`)
and proofs about its Identity Table, Handle Table, attribute translation,
and dispatcher operations.

The `PassthroughFS` struct's shared identity state is modelled as a record
of two association-list maps (`inode_to_path`, `path_to_inode`) and the
`next_inode` counter.  Relative paths are lists of components; the root is
the empty list, matching `PathBuf::from("")`, and `parent.join(name)` is
`parent ++ [name]` with `name` a nonempty protocol-supplied component.
Host filesystem calls (stat, rename, create_dir, read) are oracles passed
as explicit arguments, since the host's behaviour is outside the program.
-/

namespace Passthrough

/-- A relative path under the mirrored root, as a list of components. -/
abbrev RelPath := List String

/-- Association-list lookup, modelling `HashMap::get`. -/
def alGet {α β : Type} [DecidableEq α] : List (α × β) → α → Option β
  | [], _ => none
  | (k, v) :: rest, a => if k = a then some v else alGet rest a

/-- Association-list removal, modelling `HashMap::remove`'s effect on the map. -/
def alRemove {α β : Type} [DecidableEq α] : List (α × β) → α → List (α × β)
  | [], _ => []
  | (k, v) :: rest, a =>
      if k = a then alRemove rest a else (k, v) :: alRemove rest a

/-- Association-list insertion, modelling `HashMap::insert`'s effect on the
map (replaces any existing binding of the key). -/
def alInsert {α β : Type} [DecidableEq α] (l : List (α × β)) (a : α) (b : β) :
    List (α × β) :=
  alRemove l a ++ [(a, b)]

/-- The Identity Table state of `PassthroughFS`: the two directional maps
and the `next_inode` allocation counter (`main.rs` lines 37-50). -/
structure FS where
  inode_to_path : List (Nat × RelPath)
  path_to_inode : List (RelPath × Nat)
  next_inode : Nat
  deriving Repr, DecidableEq

/-- `PassthroughFS::new`: root inode 1 maps to the empty relative path in
both directions; allocation starts at 2 (`main.rs` lines 53-69). -/
def FS.init : FS :=
  { inode_to_path := [(1, ([] : RelPath))]
    path_to_inode := [(([] : RelPath), 1)]
    next_inode := 2 }

/-- `PassthroughFS::get_path`: lookup of the relative path by inode
(`main.rs` lines 77-79). -/
def get_path (s : FS) (inode : Nat) : Option RelPath :=
  alGet s.inode_to_path inode

/-- `PassthroughFS::get_or_create_inode`: return the existing inode for a
known path, otherwise allocate `next_inode`, bump the counter, and insert
both mapping directions (`main.rs` lines 82-95). -/
def get_or_create_inode (s : FS) (p : RelPath) : FS × Nat :=
  match alGet s.path_to_inode p with
  | some inode => (s, inode)
  | none =>
      let inode := s.next_inode
      ({ inode_to_path := alInsert s.inode_to_path inode p
         path_to_inode := alInsert s.path_to_inode p inode
         next_inode := s.next_inode + 1 }, inode)

/-- The Identity Table update performed by `rename` after a successful host
rename: `path_to_inode.remove(old)`, and when an inode was bound, insert
`new -> inode` and `inode -> new` (`main.rs` lines 622-631).  A removal of
an absent key leaves the map unchanged, so the `none` branch returns the
state as is. -/
def renameUpdate (s : FS) (old new : RelPath) : FS :=
  match alGet s.path_to_inode old with
  | some inode =>
      { s with
        path_to_inode := alInsert (alRemove s.path_to_inode old) new inode
        inode_to_path := alInsert s.inode_to_path inode new }
  | none => s

/-- The Identity Table cleanup performed by `unlink`/`rmdir` after a
successful host removal: `path_to_inode.remove(path)`, and when an inode
was bound, `inode_to_path.remove(inode)` (`main.rs` lines 545-547 and
574-576). -/
def forgetPath (s : FS) (p : RelPath) : FS :=
  match alGet s.path_to_inode p with
  | some inode =>
      { s with
        path_to_inode := alRemove s.path_to_inode p
        inode_to_path := alRemove s.inode_to_path inode }
  | none => s

/-- The Identity Table states reachable from `PassthroughFS::new` by the
three table-mutating operations.  `rename` and `forget` act on paths of
the form `parent.join(name)` with a nonempty protocol-supplied `name`, so
their paths are nonempty. -/
inductive Reach : FS → Prop
  | init : Reach FS.init
  | intern (s : FS) (p : RelPath) : Reach s → Reach (get_or_create_inode s p).1
  | rename (s : FS) (o n : RelPath) :
      Reach s → o ≠ [] → n ≠ [] → Reach (renameUpdate s o n)
  | forget (s : FS) (p : RelPath) :
      Reach s → p ≠ [] → Reach (forgetPath s p)

/-- File type classification used in `FileAttr` and directory entries. -/
inductive FType
  | directory
  | symlink
  | regularFile
  deriving Repr, DecidableEq

/-- The fields of `std::fs::Metadata` that `metadata_to_attr` reads.
Times are seconds relative to the epoch; `accessed`/`modified` are
fallible in Rust (`Result`), modelled as `Option`.  `ctime` is the host's
`i64` inode-change time; the remaining numeric fields carry the host's
`u64`/`u32` values. -/
structure HostMetadata where
  isDir : Bool
  isSymlink : Bool
  accessed : Option Int
  modified : Option Int
  ctime : Int
  size : Nat
  blocks : Nat
  mode : Nat
  nlink : Nat
  uid : Nat
  gid : Nat
  rdev : Nat
  blksize : Nat
  deriving Repr, DecidableEq

/-- The protocol attribute record (`fuser::FileAttr`).  `perm` is a `u16`,
`nlink`/`uid`/`gid`/`rdev`/`blksize`/`flags` are `u32`, `size`/`blocks`
are `u64`; times are seconds relative to the epoch. -/
structure FileAttr where
  ino : Nat
  size : Nat
  blocks : Nat
  atime : Int
  mtime : Int
  ctime : Int
  crtime : Int
  kind : FType
  perm : Nat
  nlink : Nat
  uid : Nat
  gid : Nat
  rdev : Nat
  blksize : Nat
  flags : Nat
  deriving Repr, DecidableEq

/-- The `i64 -> u64` wrapping cast (`as u64` applied to a signed
value). -/
def i64AsU64 (v : Int) : Nat := (v.emod (2 ^ 64)).toNat

/-- `SystemTime::UNIX_EPOCH + Duration::from_secs(secs)` for a `u64`
seconds value.  On this target a `SystemTime` carries `i64` seconds, so
the addition panics ("overflow when adding duration to instant") when
`secs` exceeds `i64::MAX`; the panic is modelled as `none`. -/
def epochPlusSecs (secs : Nat) : Option Int :=
  if secs < 2 ^ 63 then some (Int.ofNat secs) else none

/-- `PassthroughFS::metadata_to_attr` (`main.rs` lines 98-132).
`accessed()`/`modified()` fall back to the epoch via `unwrap_or`;
`ctime` is `UNIX_EPOCH + Duration::from_secs(metadata.ctime() as u64)`
(`main.rs` line 113), which PANICS for a negative (pre-epoch) change
time: the `i64 -> u64` cast wraps to a value at least `2 ^ 63`, which no
longer fits a `SystemTime` — the panic is modelled as `none`.  `perm` is
`(mode & 0o7777) as u16`; `nlink`, `rdev` and `blksize` are
`u64 -> u32` truncating casts (`as u32`); `crtime` is the epoch and
`flags` is 0. -/
def metadata_to_attr (m : HostMetadata) (inode : Nat) : Option FileAttr :=
  match epochPlusSecs (i64AsU64 m.ctime) with
  | none => none
  | some ctime =>
      some
        { ino := inode
          size := m.size
          blocks := m.blocks
          atime := m.accessed.getD 0
          mtime := m.modified.getD 0
          ctime := ctime
          crtime := 0
          kind :=
            if m.isDir then FType.directory
            else if m.isSymlink then FType.symlink
            else FType.regularFile
          perm := (Nat.land m.mode 0o7777) % 2 ^ 16
          nlink := m.nlink % 2 ^ 32
          uid := m.uid
          gid := m.gid
          rdev := m.rdev % 2 ^ 32
          blksize := m.blksize % 2 ^ 32
          flags := 0 }

/-- A concrete host metadata record with a representable (non-negative)
inode-change time. -/
def sampleMeta : HostMetadata :=
  { isDir := true, isSymlink := false, accessed := some 7,
    modified := some 8, ctime := 5, size := 100, blocks := 1,
    mode := 0o41777, nlink := 2 ^ 32 + 5, uid := 1000, gid := 1000,
    rdev := 0, blksize := 4096 }

/-- The interning loop of `readdir` (`main.rs` lines 345-363): for each
host directory entry (name and host-reported type, regular file when the
entry's metadata is unavailable), intern `path.join(name)` and produce
`(child_inode, file_type, name)`. -/
def internChildren (s : FS) (dir : RelPath) :
    List (String × FType) → FS × List (Nat × FType × String)
  | [] => (s, [])
  | (name, ft) :: rest =>
      let r1 := get_or_create_inode s (dir ++ [name])
      let r2 := internChildren r1.1 dir rest
      (r2.1, (r1.2, ft, name) :: r2.2)

/-- The full entry sequence built by `readdir` (`main.rs` lines 340-363):
synthetic `.` and `..` carrying the directory's own inode, then the
interned host entries. -/
def readdirEntries (s : FS) (ino : Nat) (dir : RelPath)
    (host : List (String × FType)) : FS × List (Nat × FType × String) :=
  let r := internChildren s dir host
  (r.1, (ino, FType.directory, ".") :: (ino, FType.directory, "..") :: r.2)

/-- Pair each element of a list with its 1-based position, starting the
count after `k` earlier elements. -/
def posFrom {E : Type} (k : Nat) : List E → List (Nat × E)
  | [] => []
  | e :: rest => (k + 1, e) :: posFrom (k + 1) rest

/-- The streaming loop of `readdir` (`main.rs` lines 365-369):
`enumerate().skip(offset)`, each entry passed to `reply.add` with position
`i + 1`, stopping once the reply buffer is full after accepting `budget`
entries. -/
def readdirReply {E : Type} (es : List E) (offset budget : Nat) :
    List (Nat × E) :=
  ((posFrom 0 es).drop offset).take budget

/-- `PassthroughFS::read` (`main.rs` lines 250-279).  The open-file table
maps handles to file contents (byte lists).  The host `File::read` fills
the first `hostCount` bytes of the `size`-byte zeroed buffer with the
bytes at the seek position and returns `hostCount`; the reply is
`buffer[..hostCount]`.  An unknown handle replies with an error
(`ENOENT`), modelled as `none`. -/
def fsRead (openFiles : List (Nat × List Nat)) (fh offset size hostCount : Nat) :
    Option (List Nat) :=
  match alGet openFiles fh with
  | none => none
  | some contents =>
      let buffer := ((contents.drop offset).take hostCount)
        ++ List.replicate (size - hostCount) 0
      some (buffer.take hostCount)

/-- Reply type of the callbacks that answer with either success or a
POSIX errno (`fuser::ReplyEmpty`). -/
inductive EmptyReply
  | ok
  | error (errno : Nat)
  deriving Repr, DecidableEq

/-- `libc::ENOENT`. -/
def ENOENT : Nat := 2

/-- `libc::EEXIST`. -/
def EEXIST : Nat := 17

/-- `PassthroughFS::flush` (`main.rs` lines 787-800): look the handle up,
call `sync_all` when present with the result discarded (`syncFails` is
the ignored outcome of the host sync), and reply ok unconditionally.
Neither table is modified. -/
def fsFlush (s : FS) (openFiles : List (Nat × List Nat)) (fh : Nat)
    (_syncFails : Bool) : FS × List (Nat × List Nat) × EmptyReply :=
  match alGet openFiles fh with
  | some _ => (s, openFiles, EmptyReply.ok)
  | none => (s, openFiles, EmptyReply.ok)

/-- `PassthroughFS::fsync` (`main.rs` lines 802-815): identical shape to
`flush` — best-effort `sync_all` on a present handle, reply ok always. -/
def fsFsync (s : FS) (openFiles : List (Nat × List Nat)) (fh : Nat)
    (_datasync : Bool) (_syncFails : Bool) :
    FS × List (Nat × List Nat) × EmptyReply :=
  match alGet openFiles fh with
  | some _ => (s, openFiles, EmptyReply.ok)
  | none => (s, openFiles, EmptyReply.ok)

/-- The failure kind of a host filesystem call (`std::io::ErrorKind`
values relevant here). -/
inductive HostErr
  | alreadyExists
  | notFound
  | permissionDenied
  | otherErr
  deriving Repr, DecidableEq

/-- Reply type of the callbacks that answer with an entry
(`ReplyEntry`); `panicked` marks a callback that aborts by panic before
sending any reply. -/
inductive EntryReply
  | entry (attr : FileAttr)
  | error (errno : Nat)
  | panicked
  deriving Repr, DecidableEq

/-- `PassthroughFS::mkdir` (`main.rs` lines 485-526): resolve the parent,
run host `create_dir` (`hostCreateDir` is its outcome, `none` = success);
on success chmod (best-effort), intern the path, stat it for the reply
(`hostStat`), and translate the attributes (which panics on a negative
change time); on ANY `create_dir` error reply `EEXIST`. -/
def fsMkdir (s : FS) (parent : Nat) (name : String)
    (hostCreateDir : Option HostErr) (hostStat : Option HostMetadata) :
    FS × EntryReply :=
  match get_path s parent with
  | none => (s, EntryReply.error ENOENT)
  | some parentPath =>
      match hostCreateDir with
      | none =>
          let r := get_or_create_inode s (parentPath ++ [name])
          match hostStat with
          | some m =>
              match metadata_to_attr m r.2 with
              | some attr => (r.1, EntryReply.entry attr)
              | none => (r.1, EntryReply.panicked)
          | none => (r.1, EntryReply.error ENOENT)
      | some _ => (s, EntryReply.error EEXIST)

/-- `PassthroughFS::rename` (`main.rs` lines 586-639): resolve both
parents, run the host rename (`hostRenameOk`), and on success apply the
Identity Table update `renameUpdate`; on host failure reply `ENOENT`
with no table change. -/
def fsRename (s : FS) (parent : Nat) (name : String)
    (newparent : Nat) (newname : String) (hostRenameOk : Bool) :
    FS × EmptyReply :=
  match get_path s parent with
  | none => (s, EmptyReply.error ENOENT)
  | some pp =>
      match get_path s newparent with
      | none => (s, EmptyReply.error ENOENT)
      | some np =>
          if hostRenameOk then
            (renameUpdate s (pp ++ [name]) (np ++ [newname]), EmptyReply.ok)
          else (s, EmptyReply.error ENOENT)

/-- Invariant of reachable Identity Table states: every forward entry of
`path_to_inode` is mirrored in `inode_to_path`, all inodes in the maps are
below `next_inode`, and inode 1 is the root bound to the empty path. -/
structure Inv (s : FS) : Prop where
  consist : ∀ p i, alGet s.path_to_inode p = some i →
    alGet s.inode_to_path i = some p
  ptoi_lt : ∀ p i, alGet s.path_to_inode p = some i → i < s.next_inode
  itop_lt : ∀ i p, alGet s.inode_to_path i = some p → i < s.next_inode
  root_itop : alGet s.inode_to_path 1 = some ([] : RelPath)
  root_ptoi : alGet s.path_to_inode ([] : RelPath) = some 1
  two_le : 2 ≤ s.next_inode

/-! ### Association-list map lemmas -/

theorem alGet_alRemove {α β : Type} [DecidableEq α]
    (l : List (α × β)) (a a' : α) :
    alGet (alRemove l a) a' = if a' = a then none else alGet l a' := by
  induction l with
  | nil => simp [alRemove, alGet]
  | cons hd tl ih =>
      obtain ⟨k, v⟩ := hd
      by_cases hka : k = a <;> by_cases h'a : a' = a <;>
        by_cases hk' : k = a' <;>
        simp_all [alRemove, alGet]

theorem alGet_append {α β : Type} [DecidableEq α]
    (l₁ l₂ : List (α × β)) (a : α) :
    alGet (l₁ ++ l₂) a =
      if (alGet l₁ a).isSome then alGet l₁ a else alGet l₂ a := by
  induction l₁ with
  | nil => simp [alGet]
  | cons hd tl ih =>
      obtain ⟨k, v⟩ := hd
      by_cases hk : k = a <;> simp [alGet, hk, ih]

theorem alGet_alInsert {α β : Type} [DecidableEq α]
    (l : List (α × β)) (a a' : α) (b : β) :
    alGet (alInsert l a b) a' = if a' = a then some b else alGet l a' := by
  unfold alInsert
  rw [alGet_append, alGet_alRemove]
  by_cases h : a' = a
  · simp [alGet, h]
  · simp only [if_neg h, alGet, if_neg (fun hh : a = a' => h hh.symm)]
    cases alGet l a' <;> simp

/-! ### The reachable-state invariant -/

theorem alGet_single {α β : Type} [DecidableEq α] (k : α) (v : β) (a : α) :
    alGet [(k, v)] a = if k = a then some v else none := rfl

theorem inv_init : Inv FS.init := by
  constructor
  · intro p i h
    rw [show FS.init.path_to_inode = [(([] : RelPath), 1)] from rfl,
      alGet_single] at h
    split at h
    · next heq =>
        injection h with h2
        subst h2
        rw [show FS.init.inode_to_path = [(1, ([] : RelPath))] from rfl,
          alGet_single, if_pos rfl, heq]
    · exact Option.noConfusion h
  · intro p i h
    rw [show FS.init.path_to_inode = [(([] : RelPath), 1)] from rfl,
      alGet_single] at h
    split at h
    · injection h with h2; subst h2; exact Nat.one_lt_two
    · exact Option.noConfusion h
  · intro i p h
    rw [show FS.init.inode_to_path = [(1, ([] : RelPath))] from rfl,
      alGet_single] at h
    split at h
    · next heq => subst heq; exact Nat.one_lt_two
    · exact Option.noConfusion h
  · rfl
  · rfl
  · exact Nat.le_refl 2

theorem Inv.intern {s : FS} (hs : Inv s) (p : RelPath) :
    Inv (get_or_create_inode s p).1 := by
  unfold get_or_create_inode
  cases hget : alGet s.path_to_inode p with
  | some i => simpa using hs
  | none =>
      simp only
      constructor
      · intro q j hq
        simp only [alGet_alInsert] at hq ⊢
        by_cases hqp : q = p
        · rw [if_pos hqp] at hq
          injection hq with hj
          subst hj
          rw [if_pos rfl, hqp]
        · rw [if_neg hqp] at hq
          have hj := hs.consist q j hq
          have hjlt := hs.ptoi_lt q j hq
          rw [if_neg (by omega : ¬ j = s.next_inode)]
          exact hj
      · intro q j hq
        show j < s.next_inode + 1
        simp only [alGet_alInsert] at hq
        by_cases hqp : q = p
        · rw [if_pos hqp] at hq
          injection hq with hj
          omega
        · rw [if_neg hqp] at hq
          have := hs.ptoi_lt q j hq
          omega
      · intro j q hq
        show j < s.next_inode + 1
        simp only [alGet_alInsert] at hq
        by_cases hji : j = s.next_inode
        · omega
        · rw [if_neg hji] at hq
          have := hs.itop_lt j q hq
          omega
      · simp only [alGet_alInsert]
        rw [if_neg (by have := hs.two_le; omega : ¬ 1 = s.next_inode)]
        exact hs.root_itop
      · simp only [alGet_alInsert]
        have hnp : ¬ (([] : RelPath) = p) := by
          intro h
          rw [← h, hs.root_ptoi] at hget
          exact Option.noConfusion hget
        rw [if_neg hnp]
        exact hs.root_ptoi
      · show 2 ≤ s.next_inode + 1
        have := hs.two_le
        omega

theorem Inv.renamePreserve {s : FS} (hs : Inv s) {o n : RelPath}
    (ho : o ≠ []) (hn : n ≠ []) : Inv (renameUpdate s o n) := by
  unfold renameUpdate
  cases hget : alGet s.path_to_inode o with
  | none => simpa using hs
  | some i =>
      simp only
      have hio : alGet s.inode_to_path i = some o := hs.consist o i hget
      have hilt : i < s.next_inode := hs.ptoi_lt o i hget
      have hi1 : i ≠ 1 := by
        intro h
        subst h
        rw [hs.root_itop] at hio
        injection hio with h2
        exact ho h2.symm
      constructor
      · intro q j hq
        simp only [alGet_alInsert, alGet_alRemove] at hq ⊢
        by_cases hqn : q = n
        · rw [if_pos hqn] at hq
          injection hq with hj
          subst hj
          rw [if_pos rfl, hqn]
        · rw [if_neg hqn] at hq
          by_cases hqo : q = o
          · rw [if_pos hqo] at hq
            exact Option.noConfusion hq
          · rw [if_neg hqo] at hq
            have hj := hs.consist q j hq
            have hji : ¬ j = i := by
              intro h
              subst h
              rw [hio] at hj
              injection hj with h2
              exact hqo h2.symm
            rw [if_neg hji]
            exact hj
      · intro q j hq
        show j < s.next_inode
        simp only [alGet_alInsert, alGet_alRemove] at hq
        by_cases hqn : q = n
        · rw [if_pos hqn] at hq
          injection hq with hj
          omega
        · rw [if_neg hqn] at hq
          by_cases hqo : q = o
          · rw [if_pos hqo] at hq
            exact Option.noConfusion hq
          · rw [if_neg hqo] at hq
            exact hs.ptoi_lt q j hq
      · intro j q hq
        simp only [alGet_alInsert] at hq
        by_cases hji : j = i
        · subst hji
          exact hilt
        · rw [if_neg hji] at hq
          exact hs.itop_lt j q hq
      · simp only [alGet_alInsert]
        rw [if_neg (fun h => hi1 h.symm)]
        exact hs.root_itop
      · simp only [alGet_alInsert, alGet_alRemove]
        rw [if_neg (fun h => hn h.symm), if_neg (fun h => ho h.symm)]
        exact hs.root_ptoi
      · exact hs.two_le

theorem Inv.forgetPreserve {s : FS} (hs : Inv s) {p : RelPath}
    (hp : p ≠ []) : Inv (forgetPath s p) := by
  unfold forgetPath
  cases hget : alGet s.path_to_inode p with
  | none => simpa using hs
  | some i =>
      simp only
      have hio : alGet s.inode_to_path i = some p := hs.consist p i hget
      have hi1 : i ≠ 1 := by
        intro h
        subst h
        rw [hs.root_itop] at hio
        injection hio with h2
        exact hp h2.symm
      constructor
      · intro q j hq
        simp only [alGet_alRemove] at hq ⊢
        by_cases hqp : q = p
        · rw [if_pos hqp] at hq
          exact Option.noConfusion hq
        · rw [if_neg hqp] at hq
          have hj := hs.consist q j hq
          have hji : ¬ j = i := by
            intro h
            subst h
            rw [hio] at hj
            injection hj with h2
            exact hqp h2.symm
          rw [if_neg hji]
          exact hj
      · intro q j hq
        simp only [alGet_alRemove] at hq
        by_cases hqp : q = p
        · rw [if_pos hqp] at hq
          exact Option.noConfusion hq
        · rw [if_neg hqp] at hq
          exact hs.ptoi_lt q j hq
      · intro j q hq
        simp only [alGet_alRemove] at hq
        by_cases hji : j = i
        · rw [if_pos hji] at hq
          exact Option.noConfusion hq
        · rw [if_neg hji] at hq
          exact hs.itop_lt j q hq
      · simp only [alGet_alRemove]
        rw [if_neg (fun h => hi1 h.symm)]
        exact hs.root_itop
      · simp only [alGet_alRemove]
        rw [if_neg (fun h => hp h.symm)]
        exact hs.root_ptoi
      · exact hs.two_le

theorem reach_inv {s : FS} (h : Reach s) : Inv s := by
  induction h with
  | init => exact inv_init
  | intern s p _ ih => exact ih.intern p
  | rename s o n _ ho hn ih => exact ih.renamePreserve ho hn
  | forget s p _ hp ih => exact ih.forgetPreserve hp

/-! ### Reduction helpers for the table operations -/

theorem get_or_create_known {s : FS} {p : RelPath} {i : Nat}
    (h : alGet s.path_to_inode p = some i) :
    get_or_create_inode s p = (s, i) := by
  unfold get_or_create_inode
  rw [h]

theorem get_or_create_fresh {s : FS} {p : RelPath}
    (h : alGet s.path_to_inode p = none) :
    get_or_create_inode s p =
      ({ inode_to_path := alInsert s.inode_to_path s.next_inode p
         path_to_inode := alInsert s.path_to_inode p s.next_inode
         next_inode := s.next_inode + 1 }, s.next_inode) := by
  unfold get_or_create_inode
  rw [h]

theorem renameUpdate_known {s : FS} {o : RelPath} {i : Nat} (n : RelPath)
    (h : alGet s.path_to_inode o = some i) :
    renameUpdate s o n =
      { s with
        path_to_inode := alInsert (alRemove s.path_to_inode o) n i
        inode_to_path := alInsert s.inode_to_path i n } := by
  unfold renameUpdate
  rw [h]

theorem renameUpdate_unknown {s : FS} {o : RelPath} (n : RelPath)
    (h : alGet s.path_to_inode o = none) : renameUpdate s o n = s := by
  unfold renameUpdate
  rw [h]

theorem forgetPath_known {s : FS} {p : RelPath} {i : Nat}
    (h : alGet s.path_to_inode p = some i) :
    forgetPath s p =
      { s with
        path_to_inode := alRemove s.path_to_inode p
        inode_to_path := alRemove s.inode_to_path i } := by
  unfold forgetPath
  rw [h]

theorem forgetPath_unknown {s : FS} {p : RelPath}
    (h : alGet s.path_to_inode p = none) : forgetPath s p = s := by
  unfold forgetPath
  rw [h]

theorem fsRename_resolved {s : FS} {parent newparent : Nat}
    {pp np : RelPath} (name newname : String)
    (h1 : get_path s parent = some pp)
    (h2 : get_path s newparent = some np) :
    fsRename s parent name newparent newname true =
      (renameUpdate s (pp ++ [name]) (np ++ [newname]), EmptyReply.ok) := by
  unfold fsRename
  rw [h1, h2]
  rfl

/-! ### Position-annotation lemmas for the readdir stream -/

theorem posFrom_length {E : Type} (k : Nat) (es : List E) :
    (posFrom k es).length = es.length := by
  induction es generalizing k with
  | nil => rfl
  | cons e rest ih => simp [posFrom, ih]

theorem posFrom_map_snd {E : Type} (k : Nat) (es : List E) :
    (posFrom k es).map Prod.snd = es := by
  induction es generalizing k with
  | nil => rfl
  | cons e rest ih => simp [posFrom, ih]

theorem posFrom_map_fst {E : Type} (k : Nat) (es : List E) :
    (posFrom k es).map Prod.fst = List.range' (k + 1) es.length := by
  induction es generalizing k with
  | nil => rfl
  | cons e rest ih => simp [posFrom, ih, List.range']

theorem mem_posFrom {E : Type} {k : Nat} {es : List E} {x : Nat × E}
    (hx : x ∈ posFrom k es) :
    ∃ j, x.1 = k + j + 1 ∧ es.get? j = some x.2 := by
  induction es generalizing k with
  | nil => cases hx
  | cons e rest ih =>
      cases hx with
      | head => exact ⟨0, rfl, rfl⟩
      | tail _ hx' =>
          obtain ⟨j, hj1, hj2⟩ := ih hx'
          refine ⟨j + 1, ?_, hj2⟩
          omega

theorem internChildren_names (s : FS) (dir : RelPath)
    (host : List (String × FType)) :
    ((internChildren s dir host).2).map (fun e => e.2.2) =
      host.map Prod.fst := by
  induction host generalizing s with
  | nil => rfl
  | cons e rest ih =>
      obtain ⟨name, ft⟩ := e
      simp [internChildren, ih]

/-! ### C1 — Identity Table bijection -/

/-- C1 counterexample: the claim that the Identity Table's two maps are
exact inverses in every reachable state is false.  After interning `a`
(inode 2) and `b` (inode 3), a rename of `a` over the already-interned
`b` leaves both inode 2 and inode 3 resolving to `b`: two distinct ids
resolve to the same path, and inode 3's path looks up to 2, not 3. -/
theorem c1_bijection_counterexample :
    ¬ (∀ s : FS, Reach s →
        (∀ i p, alGet s.inode_to_path i = some p →
          alGet s.path_to_inode p = some i) ∧
        (∀ i j p, alGet s.inode_to_path i = some p →
          alGet s.inode_to_path j = some p → i = j)) := by
  intro hclaim
  have hreach : Reach (renameUpdate
      (get_or_create_inode (get_or_create_inode FS.init ["a"]).1 ["b"]).1
      ["a"] ["b"]) :=
    Reach.rename _ _ _
      (Reach.intern _ _ (Reach.intern _ _ Reach.init))
      (by decide) (by decide)
  have h23 := (hclaim _ hreach).2 2 3 ["b"] (by decide) (by decide)
  exact absurd h23 (by decide)

/-- C1 (amended): in every reachable state the maps are inverse in the
forward direction — every `path_to_inode` entry is mirrored in
`inode_to_path`, and no two distinct paths map to the same id.  The
reverse direction fails (see the counterexample): a rename whose
destination path was already interned leaves a stale `inode_to_path`
entry, so two ids can resolve to the same path. -/
theorem c1_forward_inverse {s : FS} (h : Reach s) :
    (∀ p i, alGet s.path_to_inode p = some i →
      alGet s.inode_to_path i = some p) ∧
    (∀ p q i, alGet s.path_to_inode p = some i →
      alGet s.path_to_inode q = some i → p = q) := by
  have hinv := reach_inv h
  refine ⟨hinv.consist, ?_⟩
  intro p q i hp hq
  have h1 := hinv.consist p i hp
  have h2 := hinv.consist q i hq
  rw [h1] at h2
  injection h2

/-- Witness for `c1_forward_inverse` at the initial state. -/
theorem c1_forward_inverse_witness :
    alGet FS.init.inode_to_path 1 = some ([] : RelPath) :=
  (c1_forward_inverse Reach.init).1 [] 1 (by decide)

/-! ### C2 — rename moves the Identity Table entry -/

/-- C2: after a `rename` between distinct relative paths whose host
rename succeeds and whose old path is bound to inode `i`, the reply is
ok, the new path maps to `i`, `i` resolves to the new path, and the old
path no longer resolves to any id. -/
theorem c2_rename_moves_entry (s : FS) (parent : Nat) (name : String)
    (newparent : Nat) (newname : String) (pp np : RelPath) (i : Nat)
    (hpp : get_path s parent = some pp)
    (hnp : get_path s newparent = some np)
    (hold : alGet s.path_to_inode (pp ++ [name]) = some i)
    (hne : pp ++ [name] ≠ np ++ [newname]) :
    (fsRename s parent name newparent newname true).2 = EmptyReply.ok ∧
    alGet (fsRename s parent name newparent newname true).1.path_to_inode
      (np ++ [newname]) = some i ∧
    get_path (fsRename s parent name newparent newname true).1 i =
      some (np ++ [newname]) ∧
    alGet (fsRename s parent name newparent newname true).1.path_to_inode
      (pp ++ [name]) = none := by
  rw [fsRename_resolved name newname hpp hnp, renameUpdate_known _ hold]
  refine ⟨rfl, ?_, ?_, ?_⟩
  · show alGet (alInsert (alRemove s.path_to_inode (pp ++ [name]))
      (np ++ [newname]) i) (np ++ [newname]) = some i
    rw [alGet_alInsert, if_pos rfl]
  · show alGet (alInsert s.inode_to_path i (np ++ [newname])) i =
      some (np ++ [newname])
    rw [alGet_alInsert, if_pos rfl]
  · show alGet (alInsert (alRemove s.path_to_inode (pp ++ [name]))
      (np ++ [newname]) i) (pp ++ [name]) = none
    rw [alGet_alInsert, if_neg hne, alGet_alRemove, if_pos rfl]

/-- Witness for `c2_rename_moves_entry`: rename `a` to `b` in a state
with `a` interned as inode 2. -/
theorem c2_rename_moves_entry_witness :
    (fsRename (get_or_create_inode FS.init ["a"]).1 1 "a" 1 "b" true).2 =
      EmptyReply.ok ∧
    alGet (fsRename (get_or_create_inode FS.init ["a"]).1 1 "a" 1 "b"
      true).1.path_to_inode ["b"] = some 2 ∧
    get_path (fsRename (get_or_create_inode FS.init ["a"]).1 1 "a" 1 "b"
      true).1 2 = some ["b"] ∧
    alGet (fsRename (get_or_create_inode FS.init ["a"]).1 1 "a" 1 "b"
      true).1.path_to_inode ["a"] = none := by
  have h := c2_rename_moves_entry (get_or_create_inode FS.init ["a"]).1
    1 "a" 1 "b" [] [] 2 (by decide) (by decide) (by decide) (by decide)
  simpa using h

/-! ### C3 — interning is idempotent and a right inverse of resolution -/

/-- C3: in every reachable state, interning a path twice returns the id
of the first interning, and resolving the returned id yields exactly the
interned path. -/
theorem c3_intern_idempotent_resolves {s : FS} (h : Reach s) (p : RelPath) :
    (get_or_create_inode (get_or_create_inode s p).1 p).2 =
      (get_or_create_inode s p).2 ∧
    get_path (get_or_create_inode s p).1 (get_or_create_inode s p).2 =
      some p := by
  cases hget : alGet s.path_to_inode p with
  | some i =>
      have h1 : get_or_create_inode s p = (s, i) := get_or_create_known hget
      rw [h1]
      constructor
      · show (get_or_create_inode s p).2 = i
        rw [h1]
      · show get_path s i = some p
        exact (reach_inv h).consist p i hget
  | none =>
      have h1 := get_or_create_fresh hget
      rw [h1]
      have h2 : alGet (alInsert s.path_to_inode p s.next_inode) p =
          some s.next_inode := by
        rw [alGet_alInsert, if_pos rfl]
      constructor
      · rw [get_or_create_known h2]
      · show alGet (alInsert s.inode_to_path s.next_inode p) s.next_inode =
          some p
        rw [alGet_alInsert, if_pos rfl]

/-- Witness for `c3_intern_idempotent_resolves` on the fresh path `a`
from the initial state. -/
theorem c3_intern_idempotent_resolves_witness :
    (get_or_create_inode (get_or_create_inode FS.init ["a"]).1 ["a"]).2 =
      (get_or_create_inode FS.init ["a"]).2 ∧
    get_path (get_or_create_inode FS.init ["a"]).1
      (get_or_create_inode FS.init ["a"]).2 = some ["a"] :=
  c3_intern_idempotent_resolves Reach.init ["a"]

/-! ### C4 — root id and monotonic, non-reusing allocation -/

/-- C4: in every reachable state, inode 1 resolves to the empty relative
path; `next_inode` is at least 2 and bounds every id in either map; a
fresh allocation returns exactly `next_inode` (hence at least 2 and not
currently bound in `inode_to_path`) and bumps the counter; and no
operation ever decreases the counter, so ids are handed out in strictly
increasing order and never reused, even after entries are forgotten. -/
theorem c4_root_and_allocation {s : FS} (h : Reach s) :
    get_path s 1 = some ([] : RelPath) ∧
    2 ≤ s.next_inode ∧
    (∀ i p, alGet s.inode_to_path i = some p → i < s.next_inode) ∧
    (∀ p i, alGet s.path_to_inode p = some i → i < s.next_inode) ∧
    (∀ p, alGet s.path_to_inode p = none →
      (get_or_create_inode s p).2 = s.next_inode ∧
      2 ≤ (get_or_create_inode s p).2 ∧
      alGet s.inode_to_path (get_or_create_inode s p).2 = none ∧
      (get_or_create_inode s p).1.next_inode = s.next_inode + 1) ∧
    (∀ p, s.next_inode ≤ (get_or_create_inode s p).1.next_inode) ∧
    (∀ o n, (renameUpdate s o n).next_inode = s.next_inode) ∧
    (∀ p, (forgetPath s p).next_inode = s.next_inode) := by
  have hinv := reach_inv h
  refine ⟨hinv.root_itop, hinv.two_le, hinv.itop_lt, hinv.ptoi_lt,
    ?_, ?_, ?_, ?_⟩
  · intro p hp
    rw [get_or_create_fresh hp]
    refine ⟨rfl, hinv.two_le, ?_, rfl⟩
    cases hit : alGet s.inode_to_path s.next_inode with
    | none => rfl
    | some q =>
        have := hinv.itop_lt _ _ hit
        omega
  · intro p
    cases hp : alGet s.path_to_inode p with
    | some i =>
        rw [get_or_create_known hp]
    | none =>
        rw [get_or_create_fresh hp]
        exact Nat.le_succ _
  · intro o n
    cases hp : alGet s.path_to_inode o with
    | some i => rw [renameUpdate_known n hp]
    | none => rw [renameUpdate_unknown n hp]
  · intro p
    cases hp : alGet s.path_to_inode p with
    | some i => rw [forgetPath_known hp]
    | none => rw [forgetPath_unknown hp]

/-- Witness for `c4_root_and_allocation` at the initial state. -/
theorem c4_root_and_allocation_witness :
    get_path FS.init 1 = some ([] : RelPath) ∧ 2 ≤ FS.init.next_inode :=
  ⟨(c4_root_and_allocation Reach.init).1,
   (c4_root_and_allocation Reach.init).2.1⟩

/-! ### C5 — readdir streaming -/

/-- C5: the full readdir sequence is `.`, `..`, then the host entries in
host order (each child interned); every streamed entry carries its
1-based position in that full sequence; consecutive batches tile (the
reply at `offset` with budget `b1 + b2` is the reply at `offset` with
budget `b1` followed by the reply at `offset + b1` with budget `b2`); a
full pass returns every entry exactly once, with positions
`1..length`. -/
theorem c5_readdir_stream :
    (∀ (s : FS) (ino : Nat) (dir : RelPath) (host : List (String × FType)),
      ((readdirEntries s ino dir host).2).map (fun e => e.2.2) =
        "." :: ".." :: host.map Prod.fst) ∧
    (∀ (es : List (Nat × FType × String)) (offset budget : Nat)
      (x : Nat × (Nat × FType × String)),
      x ∈ readdirReply es offset budget →
        1 ≤ x.1 ∧ es.get? (x.1 - 1) = some x.2) ∧
    (∀ (es : List (Nat × FType × String)) (offset b1 b2 : Nat),
      readdirReply es offset (b1 + b2) =
        readdirReply es offset b1 ++ readdirReply es (offset + b1) b2) ∧
    (∀ es : List (Nat × FType × String),
      (readdirReply es 0 es.length).map Prod.snd = es ∧
      (readdirReply es 0 es.length).map Prod.fst =
        List.range' 1 es.length) := by
  refine ⟨?_, ?_, ?_, ?_⟩
  · intro s ino dir host
    show ((ino, FType.directory, ".") :: (ino, FType.directory, "..") ::
      (internChildren s dir host).2).map (fun e => e.2.2) = _
    simp [internChildren_names]
  · intro es offset budget x hx
    have hx1 : x ∈ posFrom 0 es :=
      List.mem_of_mem_drop (List.mem_of_mem_take hx)
    obtain ⟨j, hj1, hj2⟩ := mem_posFrom hx1
    refine ⟨by omega, ?_⟩
    have hj : x.1 - 1 = j := by omega
    rw [hj]
    exact hj2
  · intro es offset b1 b2
    unfold readdirReply
    rw [List.take_add]
    congr 1
    rw [List.drop_drop]
  · intro es
    have hlen : (posFrom 0 es).length ≤ es.length := by
      rw [posFrom_length]
    constructor
    · simp only [readdirReply, List.drop_zero]
      rw [List.take_of_length_le hlen, posFrom_map_snd]
    · simp only [readdirReply, List.drop_zero]
      rw [List.take_of_length_le hlen, posFrom_map_fst]

/-- Witness for `c5_readdir_stream`: the single entry of a one-entry
stream carries position 1 and is the first element of the sequence. -/
theorem c5_readdir_stream_witness :
    1 ≤ (1 : Nat) ∧
    ([((3 : Nat), FType.regularFile, "x")].get? (1 - 1) =
      some ((3 : Nat), FType.regularFile, "x")) :=
  c5_readdir_stream.2.1 [(3, FType.regularFile, "x")] 0 5
    (1, (3, FType.regularFile, "x")) (by decide)

/-! ### C6 — read never returns more than `size` bytes -/

/-- C6: for a known handle, when the host read returns `hostCount` bytes
(`hostCount ≤ size` by the host read contract, and no more than what is
available from the seek position), the reply holds exactly those
`hostCount` bytes: never more than `size`, and fewer than `size` exactly
when the host read itself returned fewer. -/
theorem c6_read_bound (openFiles : List (Nat × List Nat))
    (fh offset size hostCount : Nat) (contents : List Nat)
    (hfh : alGet openFiles fh = some contents)
    (hle : hostCount ≤ size)
    (havail : offset + hostCount ≤ contents.length) :
    ∃ d, fsRead openFiles fh offset size hostCount = some d ∧
      d.length = hostCount ∧
      d.length ≤ size ∧
      (d.length < size ↔ hostCount < size) := by
  have hdl : ((contents.drop offset).take hostCount).length = hostCount := by
    rw [List.length_take, List.length_drop]
    omega
  refine ⟨(contents.drop offset).take hostCount, ?_, hdl, ?_, ?_⟩
  · unfold fsRead
    rw [hfh]
    simp only
    congr 1
    rw [List.take_append_of_le_length (le_of_eq hdl.symm)]
    exact List.take_of_length_le (le_of_eq hdl)
  · omega
  · rw [hdl]

/-- Witness for `c6_read_bound`: reading 2 bytes at offset 1 of a
3-byte file via handle 5. -/
theorem c6_read_bound_witness :
    ∃ d, fsRead [(5, [10, 20, 30])] 5 1 2 2 = some d ∧
      d.length = 2 ∧ d.length ≤ 2 ∧ (d.length < 2 ↔ 2 < 2) :=
  c6_read_bound [(5, [10, 20, 30])] 5 1 2 2 [10, 20, 30]
    (by decide) (by decide) (by decide)

/-! ### C7 — attribute translation -/

/-- C7 counterexample: the claim that the translator produces an
attribute record for EVERY host metadata record without crashing is
false — for a pre-epoch change time (`ctime = -1`) the source's
`UNIX_EPOCH + Duration::from_secs(ctime as u64)` (`main.rs` line 113)
panics, because the wrapped `u64` exceeds what a `SystemTime` holds;
the translator aborts (`none`) instead of producing a record. -/
theorem c7_attr_counterexample :
    ¬ (∀ (m : HostMetadata) (inode : Nat),
        ∃ attr, metadata_to_attr m inode = some attr) := by
  intro hclaim
  obtain ⟨attr, hattr⟩ := hclaim
    { isDir := false, isSymlink := false, accessed := some 0,
      modified := some 0, ctime := -1, size := 0, blocks := 0,
      mode := 0, nlink := 1, uid := 0, gid := 0, rdev := 0,
      blksize := 4096 } 42
  rw [(by decide :
    metadata_to_attr
      { isDir := false, isSymlink := false, accessed := some 0,
        modified := some 0, ctime := -1, size := 0, blocks := 0,
        mode := 0, nlink := 1, uid := 0, gid := 0, rdev := 0,
        blksize := 4096 } 42 = none)] at hattr
  exact Option.noConfusion hattr

/-- C7 (amended): for every host metadata record whose inode-change
time is non-negative (as an `i64` it then fits the `SystemTime`
addition), the translator succeeds and produces: `perm` equal to the
host mode's lower 12 bits; access/modify times copied directly when
present; the change time equal to the host's inode-change seconds;
creation time the epoch; `size`, `blocks`, `uid`, `gid` copied exactly;
and `nlink`, `rdev`, `blksize` narrowed by truncation to 32 bits.  For
a negative inode-change time the translator panics instead of producing
a record (see the counterexample). -/
theorem c7_attr_translation (m : HostMetadata) (inode : Nat)
    (hct0 : 0 ≤ m.ctime) (hct1 : m.ctime < 2 ^ 63) :
    ∃ attr, metadata_to_attr m inode = some attr ∧
      attr.ino = inode ∧
      attr.perm = m.mode % 2 ^ 12 ∧
      (∀ t, m.accessed = some t → attr.atime = t) ∧
      (∀ t, m.modified = some t → attr.mtime = t) ∧
      attr.ctime = m.ctime ∧
      attr.crtime = 0 ∧
      attr.size = m.size ∧
      attr.blocks = m.blocks ∧
      attr.nlink = m.nlink % 2 ^ 32 ∧
      attr.uid = m.uid ∧
      attr.gid = m.gid ∧
      attr.rdev = m.rdev % 2 ^ 32 ∧
      attr.blksize = m.blksize % 2 ^ 32 := by
  have hsecs : epochPlusSecs (i64AsU64 m.ctime) = some m.ctime := by
    unfold i64AsU64 epochPlusSecs
    have hem : m.ctime.emod (2 ^ 64) = m.ctime :=
      Int.emod_eq_of_lt hct0 (by omega : m.ctime < 2 ^ 64)
    rw [hem, if_pos (by omega : m.ctime.toNat < 2 ^ 63)]
    congr 1
    exact Int.toNat_of_nonneg hct0
  unfold metadata_to_attr
  rw [hsecs]
  refine ⟨_, rfl, rfl, ?_, ?_, ?_, rfl, rfl, rfl, rfl, rfl, rfl, rfl,
    rfl, rfl⟩
  · show (Nat.land m.mode 0o7777) % 2 ^ 16 = m.mode % 2 ^ 12
    have h1 : Nat.land m.mode 0o7777 = m.mode % 2 ^ 12 := by
      have := Nat.and_pow_two_sub_one_eq_mod m.mode 12
      norm_num at this ⊢
      exact this
    rw [h1]
    exact Nat.mod_eq_of_lt
      (lt_trans (Nat.mod_lt _ (by norm_num)) (by norm_num))
  · intro t ht
    show m.accessed.getD 0 = t
    rw [ht]
    rfl
  · intro t ht
    show m.modified.getD 0 = t
    rw [ht]
    rfl

/-- Witness for `c7_attr_translation` on `sampleMeta` (mode `0o41777`,
change time 5, `nlink` above 32 bits). -/
theorem c7_attr_translation_witness :
    ∃ attr, metadata_to_attr sampleMeta 42 = some attr ∧
      attr.perm = 0o1777 ∧ attr.ctime = 5 ∧ attr.atime = 7 ∧
      attr.nlink = 5 := by
  obtain ⟨attr, heq, _, hperm, hatime, _, hctime, _, _, _, hnlink, _⟩ :=
    c7_attr_translation sampleMeta 42 (by decide) (by decide)
  refine ⟨attr, heq, ?_, ?_, ?_, ?_⟩
  · rw [hperm]
    decide
  · rw [hctime]
    decide
  · rw [hatime 7 (by decide)]
  · rw [hnlink]
    decide

/-! ### C8 — flush and fsync always reply success -/

/-- C8: `flush` and `fsync` reply ok for every handle, present in the
Handle Table or not, whether or not the host sync fails, and leave the
Identity Table and the Handle Table exactly as they were. -/
theorem c8_flush_fsync_always_ok (s : FS)
    (openFiles : List (Nat × List Nat)) (fh : Nat) (syncFails ds : Bool) :
    fsFlush s openFiles fh syncFails = (s, openFiles, EmptyReply.ok) ∧
    fsFsync s openFiles fh ds syncFails = (s, openFiles, EmptyReply.ok) := by
  constructor
  · unfold fsFlush
    cases alGet openFiles fh <;> rfl
  · unfold fsFsync
    cases alGet openFiles fh <;> rfl

/-! ### C9 — mkdir and AlreadyExists -/

/-- C9 counterexample: the claim that `EEXIST` is surfaced exactly for
directory creation where the target already exists is false — `mkdir`
replies `EEXIST` for every host `create_dir` failure, here a
permission-denied failure. -/
theorem c9_mkdir_counterexample :
    ¬ (∀ (s : FS) (parent : Nat) (name : String) (e : HostErr)
        (hostStat : Option HostMetadata),
        (fsMkdir s parent name (some e) hostStat).2 =
          EntryReply.error EEXIST → e = HostErr.alreadyExists) := by
  intro hclaim
  have := hclaim FS.init 1 "d" HostErr.permissionDenied none (by decide)
  exact absurd this (by decide)

/-- C9 (amended): a second `mkdir` of an existing directory fails with
`EEXIST` — but so does every other host `create_dir` failure, whatever
its cause; the error class is not exclusive to the already-exists
case.  The failed `mkdir` leaves the Identity Table unchanged. -/
theorem c9_mkdir_eexist (s : FS) (parent : Nat) (pp : RelPath)
    (name : String) (e : HostErr) (hostStat : Option HostMetadata)
    (hpp : get_path s parent = some pp) :
    (fsMkdir s parent name (some e) hostStat).2 = EntryReply.error EEXIST ∧
    (fsMkdir s parent name (some e) hostStat).1 = s := by
  unfold fsMkdir
  rw [hpp]
  exact ⟨rfl, rfl⟩

/-- Witness for `c9_mkdir_eexist`: the already-exists failure of a
second `mkdir /d` replies `EEXIST`. -/
theorem c9_mkdir_eexist_witness :
    (fsMkdir FS.init 1 "d" (some HostErr.alreadyExists) none).2 =
      EntryReply.error EEXIST ∧
    (fsMkdir FS.init 1 "d" (some HostErr.alreadyExists) none).1 = FS.init :=
  c9_mkdir_eexist FS.init 1 [] "d" HostErr.alreadyExists none (by decide)

/-! ### C10 — rename of an unknown old path leaves the tables unchanged -/

/-- C10: when both parents resolve, the host rename succeeds, and the
old relative path is not in `path_to_inode`, `rename` replies ok and
the returned state is exactly the input state: no entry for the new
path is created and nothing in either map changes. -/
theorem c10_rename_unknown_old_frame (s : FS) (parent newparent : Nat)
    (name newname : String) (pp np : RelPath)
    (hpp : get_path s parent = some pp)
    (hnp : get_path s newparent = some np)
    (hunknown : alGet s.path_to_inode (pp ++ [name]) = none) :
    fsRename s parent name newparent newname true = (s, EmptyReply.ok) := by
  rw [fsRename_resolved name newname hpp hnp,
    renameUpdate_unknown _ hunknown]

/-- Witness for `c10_rename_unknown_old_frame`: renaming the never-seen
path `a` from the initial state succeeds and changes nothing. -/
theorem c10_rename_unknown_old_frame_witness :
    fsRename FS.init 1 "a" 1 "b" true = (FS.init, EmptyReply.ok) :=
  c10_rename_unknown_old_frame FS.init 1 1 "a" "b" [] []
    (by decide) (by decide) (by decide)

end Passthrough
